import Mathlib

/-!
Verification of the rating / prediction core of the Burdigala tournament
application (src/main.py).

Embedding conventions:
* Missing spreadsheet values (pandas NaN after `pd.to_numeric(..., errors="coerce")`,
  or `None` returned by `performance_ratio`) are modelled with `Option`.
* Exact arithmetic of the rating engine is modelled over `ℚ`; the logistic
  matchup model uses `ℝ` (it needs `Real.exp`).
* The pandas column pipeline propagates NaN through float arithmetic
  (`Ratio_effectif`, `puissance_combattant`, `proba_victoire` inside the
  simulator).  That propagation is modelled by `RVal`, a real number extended
  with a `nan` element absorbed by every arithmetic operation, on which every
  comparison (`<`) is false — exactly the IEEE behaviour the Python code
  relies on.
* The process-wide random source (`random.shuffle`, `random.random()`) is
  modelled by an explicit shuffle function (assumed to permute its input) and
  a stream `ℕ → ℝ` of draws; each simulated bout consumes one draw, so the
  final stream index counts the bouts.
-/

namespace Burdigala

/-- Constant `ALPHA = 0.5` — weight of the rank contribution (src/main.py line 8). -/
noncomputable def ALPHA : ℝ := 1/2

/-- Constant `BETA = 0.5` — weight of the ratio contribution (src/main.py line 9). -/
noncomputable def BETA : ℝ := 1/2

/-- Constant `K = 8` — sharpness of the logistic model (src/main.py line 10). -/
noncomputable def K : ℝ := 8

/-- Constant `DRAW_WEIGHT = 0.5` — a draw counts as half a win (src/main.py line 129). -/
def DRAW_WEIGHT : ℚ := 1/2

/-- Constant `SMOOTHING_C = 2` — additive smoothing constant (src/main.py line 130). -/
def SMOOTHING_C : ℚ := 2

/-- Function `performance_ratio(wins, losses, draws, c, draw_weight)` from
src/main.py lines 133-152: `None` if any input is missing; `0.5` when the
total bout count is zero; otherwise
`(wins + draw_weight*draws + c) / (total + 2*c)`. -/
def performance_ratio (wins losses draws : Option ℕ) (c draw_weight : ℚ) :
    Option ℚ :=
  match wins, losses, draws with
  | some w, some l, some d =>
      let total := w + l + d
      if total = 0 then some (1/2)
      else some ((w + draw_weight * d + c) / ((total : ℚ) + 2 * c))
  | _, _, _ => none

/-- The reliability weight `Nb_combats / (Nb_combats + 10)` computed for the
`Fiabilite_ratio` column (src/main.py line 169), as a function of a known
total bout count. -/
def Fiabilite_ratio (nb : ℚ) : ℚ := nb / (nb + 10)

/-- Function `proba_victoire(score_a, score_b, k)` from src/main.py lines 218-222:
the logistic win probability `1 / (1 + exp(-k*(score_a - score_b)))`. -/
noncomputable def proba_victoire (score_a score_b k : ℝ) : ℝ :=
  1 / (1 + Real.exp (-(k * (score_a - score_b))))

/-! ### NaN-propagating float pipeline

The dataframe columns `Ratio`, `Ratio_effectif` and the scores derived from
them live in IEEE floats where a missing record turns into NaN, NaN absorbs
every arithmetic operation, and every `<` comparison involving NaN is false.
`RVal` models exactly that fragment. -/

/-- A float value of the pandas pipeline: a real number or NaN. -/
inductive RVal where
  | real (x : ℝ) : RVal
  | nan : RVal

namespace RVal

/-- IEEE addition: NaN absorbs. -/
noncomputable def add : RVal → RVal → RVal
  | real a, real b => real (a + b)
  | _, _ => nan

/-- IEEE subtraction: NaN absorbs. -/
noncomputable def sub : RVal → RVal → RVal
  | real a, real b => real (a - b)
  | _, _ => nan

/-- IEEE multiplication: NaN absorbs (even `0 * NaN = NaN`). -/
noncomputable def mul : RVal → RVal → RVal
  | real a, real b => real (a * b)
  | _, _ => nan

/-- IEEE negation. -/
noncomputable def neg : RVal → RVal
  | real a => real (-a)
  | nan => nan

/-- Division as used at strictly positive real denominators; NaN absorbs. -/
noncomputable def div : RVal → RVal → RVal
  | real a, real b => real (a / b)
  | _, _ => nan

/-- Exponential lifted to the pipeline: `exp NaN = NaN`. -/
noncomputable def rexp : RVal → RVal
  | real a => real (Real.exp a)
  | nan => nan

/-- IEEE `<`: false whenever either side is NaN. -/
def flt : RVal → RVal → Prop
  | real a, real b => a < b
  | _, _ => False

noncomputable instance (a b : RVal) : Decidable (flt a b) :=
  Classical.propDecidable _

theorem add_nan (a : RVal) : add a nan = nan := by cases a <;> rfl

theorem nan_add (a : RVal) : add nan a = nan := by cases a <;> rfl

theorem sub_nan (a : RVal) : sub a nan = nan := by cases a <;> rfl

theorem nan_sub (a : RVal) : sub nan a = nan := by cases a <;> rfl

theorem mul_nan (a : RVal) : mul a nan = nan := by cases a <;> rfl

theorem nan_mul (a : RVal) : mul nan a = nan := by cases a <;> rfl

theorem div_nan (a : RVal) : div a nan = nan := by cases a <;> rfl

theorem not_flt_nan (a : RVal) : ¬ flt a nan := by cases a <;> simp [flt]

end RVal

/-! ### Competitor rows and the derived columns -/

/-- One row of the dataframe: the fields of a competitor the core reads.
`rang` is `none` when the spreadsheet holds `"?"` (coerced to NaN on line 35);
`wins`, `losses`, `draws` are `none` when missing. -/
structure Row where
  name : String
  rang : Option ℚ
  wins : Option ℕ
  losses : Option ℕ
  draws : Option ℕ
deriving DecidableEq

/-- The `Nb_combats` column (line 156): `Wins + Losses + Draws`, NaN
(modelled `none`) as soon as one addend is missing. -/
def Nb_combats (r : Row) : Option ℕ :=
  match r.wins, r.losses, r.draws with
  | some w, some l, some d => some (w + l + d)
  | _, _, _ => none

/-- The `Ratio` column (lines 159-166): `performance_ratio` applied to the
row with the configured constants. -/
def Ratio (r : Row) : Option ℚ :=
  performance_ratio r.wins r.losses r.draws SMOOTHING_C DRAW_WEIGHT

/-- The `Ratio` column seen as a float: `None` becomes NaN in arithmetic. -/
noncomputable def ratioF (r : Row) : RVal :=
  match Ratio r with
  | some q => RVal.real (q : ℝ)
  | none => RVal.nan

/-- The `Fiabilite_ratio` column (line 169) as a float:
`Nb_combats / (Nb_combats + 10)`, NaN when the bout count is missing. -/
noncomputable def fiabiliteF (r : Row) : RVal :=
  match Nb_combats r with
  | some n => RVal.real ((n : ℝ) / ((n : ℝ) + 10))
  | none => RVal.nan

/-- The `Ratio_effectif` column (lines 195-197):
`0.5 + Fiabilite_ratio * (Ratio - 0.5)` in float arithmetic. -/
noncomputable def Ratio_effectif (r : Row) : RVal :=
  RVal.add (RVal.real (1/2))
    (RVal.mul (fiabiliteF r) (RVal.sub (ratioF r) (RVal.real (1/2))))

/-- Function `puissance_combattant(row, alpha, beta)` (lines 205-215): starts at 0,
adds `alpha * (1/Rang)` only when the rank is present and strictly positive,
then adds `beta * Ratio_effectif` in float arithmetic. -/
noncomputable def puissance_combattant (row : Row) (alpha beta : ℝ) : RVal :=
  let base : RVal :=
    match row.rang with
    | some rg => if 0 < rg then RVal.real (0 + alpha * (1 / (rg : ℝ)))
                 else RVal.real 0
    | none => RVal.real 0
  RVal.add base (RVal.mul (RVal.real beta) (Ratio_effectif row))

/-- The logistic formula of lines 291-292 evaluated in float arithmetic, so
that a NaN score yields a NaN probability:
`1 / (1 + exp(-(k * (score_a - score_b))))`. -/
noncomputable def proba_victoireF (score_a score_b : RVal) (k : ℝ) : RVal :=
  RVal.div (RVal.real 1)
    (RVal.add (RVal.real 1)
      (RVal.rexp (RVal.neg (RVal.mul (RVal.real k) (RVal.sub score_a score_b)))))

/-! ### Bout and tournament simulation

`random.shuffle` is modelled by an explicit shuffle function assumed to
permute its argument; each call of `random.random()` is one value of an
explicit stream `rng : ℕ → ℝ`, consumed in order, so the stream index after
the tournament equals the number of simulated bouts. -/

/-- Function `simuler_combat(row_a, row_b)` (lines 295-302) with its random draw `r`
made explicit: A wins iff `r < p_a` in float comparison (false when `p_a` is
NaN); the winner's name is returned. -/
noncomputable def simuler_combat (r : ℝ) (row_a row_b : Row) : String :=
  if RVal.flt (RVal.real r)
      (proba_victoireF (puissance_combattant row_a ALPHA BETA)
        (puissance_combattant row_b ALPHA BETA) K) then
    row_a.name
  else
    row_b.name

/-- Lookup `df.set_index("Combattant")` (line 312): name-keyed row lookup.  Every
name fed to it during a tournament comes from the dataframe, so `find?`
succeeds; the default keeps the looked-up key as the row name, mirroring the
pandas invariant that `.loc[a].name = a`. -/
def set_index (df : List Row) (a : String) : Row :=
  (df.find? (fun r => r.name == a)).getD ⟨a, none, none, none, none⟩

/-- The pairing loop of lines 321-329: fight consecutive pairs of the (even
length) list, consuming one random draw per bout; returns the winners in
order together with the next unused stream index. -/
noncomputable def combats (lookup : String → Row) (rng : ℕ → ℝ) :
    ℕ → List String → List String × ℕ
  | idx, a :: b :: rest =>
      let w := simuler_combat (rng idx) (lookup a) (lookup b)
      let t := combats lookup rng (idx + 1) rest
      (w :: t.1, t.2)
  | idx, _ => ([], idx)

/-- One iteration of the `while` body (lines 315-331): if the list has odd
length, the last competitor is popped as a bye and heads the next round;
the rest fight pairwise. -/
noncomputable def un_tour (lookup : String → Row) (rng : ℕ → ℝ) (idx : ℕ)
    (c : List String) : List String × ℕ :=
  if c.length % 2 = 1 then
    let t := combats lookup rng idx c.dropLast
    (c.getLast?.toList ++ t.1, t.2)
  else
    combats lookup rng idx c

/-- Each pairing pass halves the number of competitors (integer division). -/
theorem combats_fst_length (lookup : String → Row) (rng : ℕ → ℝ) :
    ∀ (l : List String) (idx : ℕ),
      ((combats lookup rng idx l).1).length = l.length / 2
  | [], _ => by simp [combats]
  | [a], _ => by simp [combats]
  | a :: b :: rest, idx => by
      have ih := combats_fst_length lookup rng rest (idx + 1)
      simp only [combats, List.length_cons, ih]
      omega

/-- A round strictly shrinks any list of at least two competitors. -/
theorem un_tour_fst_length_lt (lookup : String → Row) (rng : ℕ → ℝ)
    (idx : ℕ) (c : List String) (h : 2 ≤ c.length) :
    ((un_tour lookup rng idx c).1).length < c.length := by
  unfold un_tour
  split
  · have hne : c ≠ [] := by
      intro hc; subst hc; simp at h
    simp only [List.length_append, combats_fst_length, List.length_dropLast,
      List.getLast?_eq_getLast _ hne, Option.toList_some, List.length_cons,
      List.length_nil]
    omega
  · rename_i hpar
    rw [combats_fst_length]
    omega

/-- A round never empties a non-empty list of competitors. -/
theorem un_tour_fst_ne_nil (lookup : String → Row) (rng : ℕ → ℝ)
    (idx : ℕ) (c : List String) (h : c ≠ []) :
    (un_tour lookup rng idx c).1 ≠ [] := by
  have hlen : 1 ≤ c.length := List.length_pos.mpr h
  unfold un_tour
  split
  · simp [List.getLast?_eq_getLast _ h]
  · rename_i hpar
    intro hnil
    have := combats_fst_length lookup rng c idx
    rw [hnil] at this
    simp at this
    omega

/-- The `while len(combattants) > 1` loop of lines 314-333, returning
`combattants[0]` (`none` on the empty list, where Python raises IndexError)
together with the next unused stream index, i.e. the total bout count. -/
noncomputable def tournoi_loop (lookup : String → Row) (rng : ℕ → ℝ)
    (c : List String) (idx : ℕ) : Option String × ℕ :=
  if h : c.length ≤ 1 then (c.head?, idx)
  else
    let t := un_tour lookup rng idx c
    tournoi_loop lookup rng t.1 t.2
termination_by c.length
decreasing_by
  exact un_tour_fst_length_lt lookup rng idx c (by omega)

/-- Function `simuler_tournoi(df)` (lines 306-333): take the competitor names, apply
the (random) shuffle, and run the elimination loop from stream index `0`. -/
noncomputable def simuler_tournoi (df : List Row)
    (shuffle : List String → List String) (rng : ℕ → ℝ) :
    Option String × ℕ :=
  tournoi_loop (set_index df) rng (shuffle (df.map Row.name)) 0

/-- The pandas invariant of `set_index`: looking up a name yields a row
carrying that very name (`.loc[a].name = a`). -/
theorem set_index_name (df : List Row) (a : String) :
    (set_index df a).name = a := by
  unfold set_index
  cases hfind : df.find? (fun r => r.name == a) with
  | none => rfl
  | some r =>
      have := List.find?_some hfind
      simpa using this

/-- A bout's winner is one of the two listed fighters. -/
theorem simuler_combat_mem (r : ℝ) (row_a row_b : Row) :
    simuler_combat r row_a row_b = row_a.name ∨
    simuler_combat r row_a row_b = row_b.name := by
  unfold simuler_combat
  split
  · exact Or.inl rfl
  · exact Or.inr rfl

/-- Every winner of a pairing pass was in the list that entered it. -/
theorem combats_mem (lookup : String → Row) (rng : ℕ → ℝ)
    (hname : ∀ a, (lookup a).name = a) :
    ∀ (l : List String) (idx : ℕ) (x : String),
      x ∈ (combats lookup rng idx l).1 → x ∈ l
  | [], _, x => by simp [combats]
  | [a], _, x => by simp [combats]
  | a :: b :: rest, idx, x => by
      intro hx
      simp only [combats, List.mem_cons] at hx ⊢
      rcases hx with hx | hx
      · rcases simuler_combat_mem (rng idx) (lookup a) (lookup b) with h | h
        · rw [hname] at h; exact Or.inl (hx.trans h)
        · rw [hname] at h; exact Or.inr (Or.inl (hx.trans h))
      · exact Or.inr (Or.inr (combats_mem lookup rng hname rest (idx + 1) x hx))

/-- Every competitor that survives a round was in the round's input. -/
theorem un_tour_mem (lookup : String → Row) (rng : ℕ → ℝ)
    (hname : ∀ a, (lookup a).name = a) (idx : ℕ) (c : List String)
    (x : String) (hx : x ∈ (un_tour lookup rng idx c).1) : x ∈ c := by
  unfold un_tour at hx
  split at hx
  · rename_i hodd
    have hne : c ≠ [] := by
      intro hc; subst hc; simp at hodd
    rw [List.getLast?_eq_getLast _ hne] at hx
    simp only [Option.toList_some, List.mem_append, List.mem_singleton] at hx
    rcases hx with hx | hx
    · exact hx ▸ List.getLast_mem hne
    · exact List.dropLast_subset c (combats_mem lookup rng hname _ idx x hx)
  · exact combats_mem lookup rng hname c idx x hx

/-- The elimination loop of a non-empty field returns a champion drawn from
that field (and the loop terminates with a defined result). -/
theorem tournoi_loop_champion (lookup : String → Row) (rng : ℕ → ℝ)
    (hname : ∀ a, (lookup a).name = a) :
    ∀ (n : ℕ) (c : List String) (idx : ℕ), c.length ≤ n → c ≠ [] →
      ∃ w, (tournoi_loop lookup rng c idx).1 = some w ∧ w ∈ c := by
  intro n
  induction n with
  | zero =>
      intro c idx hlen hne
      exact absurd (List.length_eq_zero.mp (Nat.le_zero.mp hlen)) hne
  | succ n ih =>
      intro c idx hlen hne
      rw [tournoi_loop]
      split
      · rename_i hle
        match c, hne with
        | [a], _ => exact ⟨a, rfl, List.mem_singleton_self a⟩
        | a :: b :: rest, _ => simp at hle
      · rename_i hgt
        have h2 : 2 ≤ c.length := by omega
        have hlt := un_tour_fst_length_lt lookup rng idx c h2
        have hnn := un_tour_fst_ne_nil lookup rng idx c hne
        obtain ⟨w, hw, hmem⟩ :=
          ih (un_tour lookup rng idx c).1 (un_tour lookup rng idx c).2
            (by omega) hnn
        exact ⟨w, hw, un_tour_mem lookup rng hname idx c w hmem⟩

/-- A tournament over a non-empty roster yields a champion from the roster. -/
theorem simuler_tournoi_champion (df : List Row)
    (shuffle : List String → List String) (rng : ℕ → ℝ)
    (hsh : ∀ l, (shuffle l).Perm l) (hdf : df ≠ []) :
    ∃ c, (simuler_tournoi df shuffle rng).1 = some c ∧ c ∈ df.map Row.name := by
  unfold simuler_tournoi
  have hperm := hsh (df.map Row.name)
  have hne : shuffle (df.map Row.name) ≠ [] := by
    intro h
    have hlen := hperm.length_eq
    rw [h] at hlen
    simp only [List.length_nil, List.length_map] at hlen
    exact hdf (List.length_eq_zero.mp hlen.symm)
  obtain ⟨w, hw, hmem⟩ :=
    tournoi_loop_champion (set_index df) rng (set_index_name df)
      (shuffle (df.map Row.name)).length (shuffle (df.map Row.name)) 0
      le_rfl hne
  exact ⟨w, hw, hperm.mem_iff.mp hmem⟩

/-! ### Monte Carlo aggregation (lines 336-360) -/

/-- The `for _ in range(N_SIMULATIONS)` loop of lines 338-342: run the
tournament once per simulation index, each run with its own shuffle and
stream drawn from the shared random source, and collect the champions. -/
noncomputable def monte_carlo (df : List Row)
    (srcs : ℕ → (List String → List String) × (ℕ → ℝ)) :
    ℕ → List (Option String)
  | 0 => []
  | n + 1 =>
      (simuler_tournoi df (srcs n).1 (srcs n).2).1 :: monte_carlo df srcs n

/-- Tally `compteur = Counter(resultats)` (line 350): the tally of one champion. -/
def compteur (resultats : List (Option String)) (c : Option String) : ℕ :=
  resultats.count c

/-- The `Probabilite_victoire` column (lines 358-360):
`Victoires / N_SIMULATIONS`. -/
def Probabilite_victoire (resultats : List (Option String)) (n_runs : ℕ)
    (c : Option String) : ℚ :=
  (compteur resultats c : ℚ) / n_runs

/-- Aggregation `monte_carlo` produces exactly one champion entry per run. -/
theorem monte_carlo_length (df : List Row)
    (srcs : ℕ → (List String → List String) × (ℕ → ℝ)) :
    ∀ n : ℕ, (monte_carlo df srcs n).length = n
  | 0 => rfl
  | n + 1 => by simp [monte_carlo, monte_carlo_length df srcs n]

/-- Over a non-empty roster and genuine shuffles, every collected champion
is defined and drawn from the roster. -/
theorem monte_carlo_mem (df : List Row)
    (srcs : ℕ → (List String → List String) × (ℕ → ℝ))
    (hdf : df ≠ []) (hsh : ∀ i l, ((srcs i).1 l).Perm l) :
    ∀ (n : ℕ) (x : Option String), x ∈ monte_carlo df srcs n →
      ∃ c, x = some c ∧ c ∈ df.map Row.name
  | 0, x => by simp [monte_carlo]
  | n + 1, x => by
      intro hx
      simp only [monte_carlo, List.mem_cons] at hx
      rcases hx with hx | hx
      · obtain ⟨c, hc, hmem⟩ :=
          simuler_tournoi_champion df (srcs n).1 (srcs n).2 (hsh n) hdf
        exact ⟨c, hx ▸ hc, hmem⟩
      · exact monte_carlo_mem df srcs hdf hsh n x hx

end Burdigala

namespace Burdigala

/-- Claim C1: for all known inputs, `performance_ratio` with smoothing `c` and
draw weight `w` returns exactly `0.5` when `wins+losses+draws = 0` and
otherwise `(wins + w*draws + c)/(wins+losses+draws + 2*c)`; with the defaults
`c = 2`, `w = 0.5` the input `wins=5, losses=0, draws=0` yields exactly `7/9`. -/
theorem performance_ratio_formula :
    (∀ (w l d : ℕ) (c dw : ℚ),
      performance_ratio (some w) (some l) (some d) c dw =
        some (if w + l + d = 0 then 1/2
              else ((w : ℚ) + dw * d + c) / (((w + l + d : ℕ) : ℚ) + 2 * c))) ∧
    performance_ratio (some 5) (some 0) (some 0) SMOOTHING_C DRAW_WEIGHT =
      some (7/9) := by
  constructor
  · intro w l d c dw
    simp only [performance_ratio]
    split <;> simp_all
  · simp [performance_ratio, SMOOTHING_C, DRAW_WEIGHT]
    norm_num

/-- Helper: `performance_ratio` is undefined exactly on a missing input. -/
theorem performance_ratio_eq_none (wins losses draws : Option ℕ)
    (c dw : ℚ) :
    performance_ratio wins losses draws c dw = none ↔
      wins = none ∨ losses = none ∨ draws = none := by
  cases wins <;> cases losses <;> cases draws <;>
    simp [performance_ratio] <;> split <;> simp

/-- Claim C6: `performance_ratio` returns `None` if and only if at least one of
wins, losses, draws is missing; a missing value is never defaulted. -/
theorem performance_ratio_none_iff (wins losses draws : Option ℕ)
    (c dw : ℚ) :
    performance_ratio wins losses draws c dw = none ↔
      wins = none ∨ losses = none ∨ draws = none :=
  performance_ratio_eq_none wins losses draws c dw

/-- Claim C8: for all known non-negative integer inputs, the value returned by
`performance_ratio` (with the configured defaults) lies in `[0, 1]`. -/
theorem performance_ratio_mem_unit (w l d : ℕ) :
    ∃ x : ℚ,
      performance_ratio (some w) (some l) (some d) SMOOTHING_C DRAW_WEIGHT =
        some x ∧ 0 ≤ x ∧ x ≤ 1 := by
  simp only [performance_ratio, SMOOTHING_C, DRAW_WEIGHT]
  split
  · exact ⟨1/2, rfl, by norm_num⟩
  · refine ⟨_, rfl, ?_, ?_⟩
    · apply div_nonneg
      · positivity
      · positivity
    · rw [div_le_one (by positivity)]
      push_cast
      nlinarith [Nat.cast_nonneg (α := ℚ) l, Nat.cast_nonneg (α := ℚ) d]

/-- Claim C7: the reliability weight is `total_bouts / (total_bouts + 10)`;
it is `0` at zero bouts, strictly increasing in the bout count, always
strictly below `1`, and equal to `0.5` at exactly `10` bouts. -/
theorem Fiabilite_ratio_props :
    Fiabilite_ratio 0 = 0 ∧
    (∀ m n : ℕ, m < n → Fiabilite_ratio m < Fiabilite_ratio n) ∧
    (∀ n : ℕ, Fiabilite_ratio n < 1) ∧
    Fiabilite_ratio 10 = 1/2 := by
  refine ⟨by simp [Fiabilite_ratio], ?_, ?_, by norm_num [Fiabilite_ratio]⟩
  · intro m n hmn
    unfold Fiabilite_ratio
    rw [div_lt_div_iff₀ (by positivity) (by positivity)]
    have h : (m : ℚ) < n := by exact_mod_cast hmn
    nlinarith
  · intro n
    unfold Fiabilite_ratio
    rw [div_lt_one (by positivity)]
    linarith [Nat.cast_nonneg (α := ℚ) n]

/-- Witness for `C7` at concrete bout counts `3 < 5`. -/
theorem Fiabilite_ratio_props_witness :
    Fiabilite_ratio 3 < Fiabilite_ratio 5 :=
  Fiabilite_ratio_props.2.1 3 5 (by norm_num)

/-- Claim C3: the logistic model is exactly symmetric,
`proba_victoire a b k + proba_victoire b a k = 1`, and
`proba_victoire a a k = 0.5` for every `k`. -/
theorem proba_victoire_symm :
    (∀ a b k : ℝ, proba_victoire a b k + proba_victoire b a k = 1) ∧
    (∀ a k : ℝ, proba_victoire a a k = 1/2) := by
  constructor
  · intro a b k
    unfold proba_victoire
    have hb : -(k * (b - a)) = k * (a - b) := by ring
    rw [hb]
    have h1 : (0:ℝ) < Real.exp (-(k * (a - b))) := Real.exp_pos _
    have h2 : (0:ℝ) < Real.exp (k * (a - b)) := Real.exp_pos _
    have hprod : Real.exp (-(k * (a - b))) * Real.exp (k * (a - b)) = 1 := by
      rw [← Real.exp_add]; simp
    field_simp
    nlinarith [hprod]
  · intro a k
    unfold proba_victoire
    norm_num

end Burdigala

namespace Burdigala

/-- Claim C2: the power score is `alpha * (1/rank) + beta * effective_ratio`
when the rank is known and strictly positive, and exactly
`beta * effective_ratio` — with no error — when the rank is missing or
non-positive. -/
theorem puissance_combattant_spec (row : Row) (alpha beta e : ℝ)
    (he : Ratio_effectif row = RVal.real e) :
    (∀ rg : ℚ, row.rang = some rg → 0 < rg →
      puissance_combattant row alpha beta =
        RVal.real (alpha * (1 / (rg : ℝ)) + beta * e)) ∧
    ((row.rang = none ∨ ∃ rg, row.rang = some rg ∧ rg ≤ 0) →
      puissance_combattant row alpha beta = RVal.real (beta * e)) := by
  constructor
  · intro rg hrg hpos
    simp only [puissance_combattant, hrg, he, if_pos hpos, RVal.mul, RVal.add]
    norm_num
  · intro hcase
    rcases hcase with hnone | ⟨rg, hrg, hle⟩
    · simp only [puissance_combattant, hnone, he, RVal.mul, RVal.add]
      norm_num
    · simp only [puissance_combattant, hrg, he, if_neg (not_lt.mpr hle),
        RVal.mul, RVal.add]
      norm_num

/-- Witness for `C2`: a competitor ranked 3 with an empty record has
effective ratio `1/2` and power score `alpha/3 + beta/2`. -/
theorem puissance_combattant_spec_witness :
    puissance_combattant ⟨"A", some 3, some 0, some 0, some 0⟩ (1/2) (1/2) =
      RVal.real ((1/2) * (1 / ((3 : ℚ) : ℝ)) + (1/2) * (1/2)) :=
  (puissance_combattant_spec ⟨"A", some 3, some 0, some 0, some 0⟩
    (1/2) (1/2) (1/2)
    (by
      simp only [Ratio_effectif, fiabiliteF, ratioF, Ratio, Nb_combats,
        performance_ratio, SMOOTHING_C, DRAW_WEIGHT]
      norm_num [RVal.add, RVal.mul, RVal.sub])).1
    3 rfl (by norm_num)

/-- Claim C5: with a genuine shuffle, the empty roster yields no champion (the
code raises IndexError there), a one-competitor roster yields that
competitor with zero bouts, and every non-empty roster terminates with a
single remaining competitor, the champion, drawn from the roster. -/
theorem simuler_tournoi_cases (shuffle : List String → List String)
    (rng : ℕ → ℝ) (hsh : ∀ l, (shuffle l).Perm l) :
    ((simuler_tournoi [] shuffle rng).1 = none) ∧
    (∀ r : Row, simuler_tournoi [r] shuffle rng = (some r.name, 0)) ∧
    (∀ df : List Row, df ≠ [] →
      ∃ c, (simuler_tournoi df shuffle rng).1 = some c ∧
        c ∈ df.map Row.name) := by
  refine ⟨?_, ?_, fun df hdf => simuler_tournoi_champion df shuffle rng hsh hdf⟩
  · unfold simuler_tournoi
    have h0 : shuffle (List.map Row.name []) = [] := by
      have := hsh (List.map Row.name [])
      simpa using this.eq_nil
    rw [h0, tournoi_loop]
    simp
  · intro r
    unfold simuler_tournoi
    have h1 : shuffle (List.map Row.name [r]) = [r.name] := by
      have := hsh (List.map Row.name [r])
      simpa using List.perm_singleton.mp (by simpa using this)
    rw [h1, tournoi_loop]
    simp

/-- Witness for `C5`: with the identity shuffle, a one-row roster returns
that row's competitor as champion with zero bouts. -/
theorem simuler_tournoi_cases_witness :
    simuler_tournoi [⟨"A", none, some 1, some 2, some 0⟩] id (fun _ => 0) =
      (some "A", 0) :=
  (simuler_tournoi_cases id (fun _ => 0) (fun l => List.Perm.refl l)).2.1
    ⟨"A", none, some 1, some 2, some 0⟩

/-- Claim C4: over a non-empty roster with genuine shuffles, the Monte Carlo
tallies sum to exactly `n_runs`, every champion with a positive tally is a
roster member, and each reported empirical probability is
`win_count / n_runs`. -/
theorem monte_carlo_props (df : List Row)
    (srcs : ℕ → (List String → List String) × (ℕ → ℝ)) (n : ℕ)
    (hdf : df ≠ []) (hsh : ∀ i l, ((srcs i).1 l).Perm l) :
    (((monte_carlo df srcs n).dedup.map
        (fun c => compteur (monte_carlo df srcs n) c)).sum = n) ∧
    (∀ name, 0 < compteur (monte_carlo df srcs n) (some name) →
      name ∈ df.map Row.name) ∧
    (∀ c, Probabilite_victoire (monte_carlo df srcs n) n c =
      (compteur (monte_carlo df srcs n) c : ℚ) / n) := by
  refine ⟨?_, ?_, fun c => rfl⟩
  · have hsum := List.sum_map_count_dedup_eq_length (monte_carlo df srcs n)
    rw [monte_carlo_length df srcs n] at hsum
    refine Eq.trans (congrArg List.sum (List.map_congr_left ?_)) hsum
    intro c hc
    simp only [compteur]
    clear hc hsum
    generalize monte_carlo df srcs n = l
    induction l with
    | nil => rfl
    | cons a t ih =>
        simp only [List.count_cons, ih]
        by_cases hac : a = c
        · subst hac; simp
        · simp [hac]
  · intro name hpos
    have hmem : some name ∈ monte_carlo df srcs n :=
      List.count_pos_iff.mp hpos
    obtain ⟨c, hc, hcm⟩ := monte_carlo_mem df srcs hdf hsh n (some name) hmem
    obtain rfl : name = c := by injection hc
    exact hcm

/-- Witness for `C4`: one run over a one-competitor roster with the identity
shuffle tallies exactly one win for that competitor. -/
theorem monte_carlo_props_witness :
    ((monte_carlo [⟨"A", none, some 1, some 2, some 0⟩]
        (fun _ => (id, fun _ => 0)) 1).dedup.map
      (fun c => compteur (monte_carlo [⟨"A", none, some 1, some 2, some 0⟩]
        (fun _ => (id, fun _ => 0)) 1) c)).sum = 1 :=
  (monte_carlo_props [⟨"A", none, some 1, some 2, some 0⟩]
    (fun _ => (id, fun _ => 0)) 1 (by simp)
    (fun _ l => List.Perm.refl l)).1

/-- Claim C10: when either fighter's wins, losses or draws is missing — so the
ratio is `None`, the effective ratio NaN and the power score NaN — the bout
raises no error and always returns the second-listed fighter, because the
NaN win probability makes `random() < p_a` false. -/
theorem simuler_combat_nan (row_a row_b : Row)
    (h : row_a.wins = none ∨ row_a.losses = none ∨ row_a.draws = none ∨
         row_b.wins = none ∨ row_b.losses = none ∨ row_b.draws = none) :
    ∀ r : ℝ, simuler_combat r row_a row_b = row_b.name := by
  intro r
  have key : ∀ row : Row,
      row.wins = none ∨ row.losses = none ∨ row.draws = none →
      puissance_combattant row ALPHA BETA = RVal.nan := by
    intro row hrow
    have hratio : Ratio row = none := by
      unfold Ratio
      exact (performance_ratio_eq_none row.wins row.losses row.draws
        SMOOTHING_C DRAW_WEIGHT).mpr hrow
    have heff : Ratio_effectif row = RVal.nan := by
      unfold Ratio_effectif ratioF
      rw [hratio]
      rw [RVal.nan_sub, RVal.mul_nan, RVal.add_nan]
    unfold puissance_combattant
    rw [heff, RVal.mul_nan, RVal.add_nan]
  have nanL : puissance_combattant row_a ALPHA BETA = RVal.nan →
      proba_victoireF (puissance_combattant row_a ALPHA BETA)
        (puissance_combattant row_b ALPHA BETA) K = RVal.nan := by
    intro hA
    unfold proba_victoireF
    rw [hA, RVal.nan_sub, RVal.mul_nan]
    simp [RVal.neg, RVal.rexp, RVal.add_nan, RVal.div_nan]
  have nanR : puissance_combattant row_b ALPHA BETA = RVal.nan →
      proba_victoireF (puissance_combattant row_a ALPHA BETA)
        (puissance_combattant row_b ALPHA BETA) K = RVal.nan := by
    intro hB
    unfold proba_victoireF
    rw [hB, RVal.sub_nan, RVal.mul_nan]
    simp [RVal.neg, RVal.rexp, RVal.add_nan, RVal.div_nan]
  have hnan : proba_victoireF (puissance_combattant row_a ALPHA BETA)
      (puissance_combattant row_b ALPHA BETA) K = RVal.nan := by
    rcases h with h | h | h | h | h | h
    · exact nanL (key row_a (Or.inl h))
    · exact nanL (key row_a (Or.inr (Or.inl h)))
    · exact nanL (key row_a (Or.inr (Or.inr h)))
    · exact nanR (key row_b (Or.inl h))
    · exact nanR (key row_b (Or.inr (Or.inl h)))
    · exact nanR (key row_b (Or.inr (Or.inr h)))
  unfold simuler_combat
  rw [hnan]
  exact if_neg (RVal.not_flt_nan _)

/-- Witness for `C10`: a fighter with unknown wins loses to a fully-recorded
fighter regardless of the random draw. -/
theorem simuler_combat_nan_witness :
    simuler_combat 0 ⟨"A", some 1, none, some 0, some 0⟩
      ⟨"B", some 2, some 1, some 0, some 0⟩ = "B" :=
  simuler_combat_nan ⟨"A", some 1, none, some 0, some 0⟩
    ⟨"B", some 2, some 1, some 0, some 0⟩ (Or.inl rfl) 0

end Burdigala
